import Mathlib

/-!
Verification of the MCTS core of `minimax-rs` (`src/strategies/mcts.rs`)
against its natural-language specification.

Shallow embedding conventions:
* The search runs sequentially here (the reference driver is single-threaded);
  atomic counters become plain `Nat`/`Int` fields updated in place, and the
  shared mutable tree becomes a value of an inductive type that each pass maps
  to its successor.
* `u32` visit counters become `Nat` and the `i32` score becomes `Int`; with the
  fixed 100 passes per search neither can approach its wrap-around point, so no
  modular arithmetic is modelled.
* Fallible operations return `Except Pan _`, where `Pan` names the concrete
  abort site in the source (Rust panics: `gen_range` on an empty range, an
  `unwrap` of `None`, an out-of-range `Vec` index).
* Randomness (`rand::thread_rng`) is an explicit stream of naturals `List Nat`;
  `gen_range(0..n)` takes the head modulo `n` (and aborts when `n = 0`, as the
  Rust function does), `SliceRandom::choose` picks head-mod-length.
* `f32` is idealised as `F`: NaN, the two infinities, and exact rationals.
  Signs, infinities and NaN propagation follow IEEE-754; finite arithmetic is
  exact (no rounding), and all zeros are treated as +0.  `log2`/`sqrt` are not
  rational, so they are oracle parameters (`FOps`); every general theorem holds
  for an arbitrary oracle, hence in particular for the real `f32` functions.
  Concrete witnesses use an instance that is IEEE-exact at the points where it
  is evaluated (0, 1 and powers of two for `log2`; 0 and squares for `sqrt`,
  plus the IEEE special cases).
* The game contract's `Move::undo` is required to exactly reverse `apply`
  (§6 of the spec); a pass therefore leaves its caller's state unchanged, which
  the embedding renders by threading the state functionally: a recursive call
  receives the applied state and the caller keeps its own copy.
-/

namespace MctsVerify

/-- Terminal verdict of the game contract (`interface::Winner`). -/
inductive Winner where
  | PlayerJustMoved
  | PlayerToMove
  | Draw
deriving DecidableEq, Repr

/-- Abort (Rust panic) sites of the embedded code. -/
inductive Pan where
  /-- `rand::Rng::gen_range(0..n)` with `n = 0` (in `Node::best_child`). -/
  | emptyRange
  /-- `node.best_child(1.).unwrap()` in `simulate` when `best_child` is `None`. -/
  | unwrapBest
  /-- `next.m.as_ref().unwrap()` in `simulate` / `node.m.unwrap()` in `choose_move`. -/
  | unwrapMove
  /-- `moves.choose(&mut rng).unwrap()` in `rollout` when no move was generated. -/
  | chooseEmpty
  /-- an out-of-range `Vec` index. -/
  | indexOob
deriving DecidableEq, Repr

/-- Idealised `f32`: NaN, infinities, and exact rationals (no rounding). -/
inductive F where
  | nan
  | negInf
  | posInf
  | fin (q : ℚ)
deriving DecidableEq, Repr

namespace F

/-- IEEE-754 strict greater-than on idealised floats: any comparison with NaN
is false. -/
def fgt : F → F → Bool
  | .nan, _ => false
  | _, .nan => false
  | .posInf, .posInf => false
  | .posInf, _ => true
  | _, .posInf => false
  | .negInf, _ => false
  | .fin _, .negInf => true
  | .fin a, .fin b => decide (b < a)

/-- IEEE-754 addition on idealised floats (finite part exact). -/
def fadd : F → F → F
  | .nan, _ => .nan
  | _, .nan => .nan
  | .posInf, .negInf => .nan
  | .negInf, .posInf => .nan
  | .posInf, _ => .posInf
  | _, .posInf => .posInf
  | .negInf, _ => .negInf
  | _, .negInf => .negInf
  | .fin a, .fin b => .fin (a + b)

/-- IEEE-754 multiplication on idealised floats (finite part exact);
`0 * ±∞ = NaN`. -/
def fmul : F → F → F
  | .nan, _ => .nan
  | _, .nan => .nan
  | .posInf, .posInf => .posInf
  | .posInf, .negInf => .negInf
  | .negInf, .posInf => .negInf
  | .negInf, .negInf => .posInf
  | .posInf, .fin q => if q = 0 then .nan else if 0 < q then .posInf else .negInf
  | .fin q, .posInf => if q = 0 then .nan else if 0 < q then .posInf else .negInf
  | .negInf, .fin q => if q = 0 then .nan else if 0 < q then .negInf else .posInf
  | .fin q, .negInf => if q = 0 then .nan else if 0 < q then .negInf else .posInf
  | .fin a, .fin b => .fin (a * b)

/-- IEEE-754 division on idealised floats (finite part exact, zeros are +0):
`∞/∞ = 0/0 = NaN`, finite nonzero over zero gives a signed infinity. -/
def fdiv : F → F → F
  | .nan, _ => .nan
  | _, .nan => .nan
  | .posInf, .posInf => .nan
  | .posInf, .negInf => .nan
  | .negInf, .posInf => .nan
  | .negInf, .negInf => .nan
  | .posInf, .fin q => if 0 ≤ q then .posInf else .negInf
  | .negInf, .fin q => if 0 ≤ q then .negInf else .posInf
  | .fin _, .posInf => .fin 0
  | .fin _, .negInf => .fin 0
  | .fin a, .fin b =>
    if b = 0 then (if a = 0 then .nan else if 0 < a then .posInf else .negInf)
    else .fin (a / b)

end F

/-- Oracle for the two irrational `f32` operations used by `uct_score`.
Every general theorem below is proved for an arbitrary oracle, so it holds in
particular for the true `f32::log2` and `f32::sqrt`. -/
structure FOps where
  flog2 : F → F
  fsqrt : F → F

/-- The abstract two-player game contract (`interface::Game`) consumed by the
search: legal-move enumeration, terminal verdict, and move application.
`Move::undo` is contracted to exactly reverse `apply`, so state restoration is
rendered by the caller keeping its pre-`apply` state (see the header note). -/
structure Game (S M : Type) where
  generate_moves : S → List M
  get_winner : S → Option Winner
  apply : M → S → S

/-- One search-tree vertex (`Node<M>`): the move that produced it (`None` only
at the root), the visit counter, the signed score accumulator, and the lazily
populated expansion (terminal verdict plus ordered children). -/
inductive Node (M : Type) : Type where
  | mk (m : Option M) (visits : Nat) (score : Int)
       (expansion : Option (Option Winner × List (Node M)))

namespace Node

/-- The move that led from the parent into this node. -/
def m : Node M → Option M
  | ⟨mv, _, _, _⟩ => mv

/-- Total rollouts that passed through this node. -/
def visits : Node M → Nat
  | ⟨_, v, _, _⟩ => v

/-- Sum of outcomes recorded at this node, from the perspective of the player
to move here. -/
def score : Node M → Int
  | ⟨_, _, sc, _⟩ => sc

/-- The lazily computed expansion: terminal verdict and children. -/
def expansion : Node M → Option (Option Winner × List (Node M))
  | ⟨_, _, _, e⟩ => e

/-- `Node::new`: fresh node with zeroed statistics and no expansion. -/
def new (mv : Option M) : Node M := ⟨mv, 0, 0, none⟩

end Node

/-- `Node::update_stats`: increment `visits`, add `result` to `score`, and
return `result` unchanged. -/
def updateStats (n : Node M) (result : Int) : Node M × Int :=
  (⟨n.m, n.visits + 1, n.score + result, n.expansion⟩, result)

/-- The `{PlayerJustMoved ↦ 1, PlayerToMove ↦ -1, Draw ↦ 0}` outcome mapping
used both by `rollout` and by `simulate` at terminal expansions. -/
def winVal : Winner → Int
  | .PlayerJustMoved => 1
  | .PlayerToMove => -1
  | .Draw => 0

/-- `new_expansion`: terminal verdict of the state, plus one fresh child per
legal move when the state is not terminal. -/
def new_expansion (g : Game S M) (state : S) : Option Winner × List (Node M) :=
  match g.get_winner state with
  | some w => (some w, [])
  | none => (none, (g.generate_moves state).map (fun mv => Node.new (some mv)))

/-- `MCTSOptions`: rollout depth cap and the leaf-visit threshold below which a
leaf is rolled out instead of expanded. -/
structure MCTSOptions where
  max_rollout_depth : Nat
  rollouts_before_expanding : Nat

/-- `MCTSOptions::default()`: depth cap 100, expand on the first pass. -/
def MCTSOptions.default : MCTSOptions :=
  { max_rollout_depth := 100, rollouts_before_expanding := 0 }

/-- `MonteCarloTreeSearch`: options plus the fixed number of passes. -/
structure MonteCarloTreeSearch where
  options : MCTSOptions
  max_rollouts : Nat

/-- `MonteCarloTreeSearch::new`: 100 passes per `choose_move`. -/
def MonteCarloTreeSearch.new (options : MCTSOptions) : MonteCarloTreeSearch :=
  ⟨options, 100⟩

/-- The loop body of `MonteCarloTreeSearch::rollout`, recursing on the depth
budget.  `s0` is the state the rollout was started from; the source enumerates
moves with `G::generate_moves(s, &mut moves)` — from `s0`, not from the
evolving `state` — and this embedding reproduces that faithfully. -/
def rolloutLoop (g : Game S M) (s0 : S) :
    Nat → S → Int → List Nat → Except Pan (Int × List Nat)
  | depth, state, sign, rng =>
    match g.get_winner state with
    | some w => .ok (winVal w * sign, rng)
    | none =>
      match depth with
      | 0 => .ok (0, rng)
      | d + 1 =>
        match g.generate_moves s0 with
        | [] => .error .chooseEmpty
        | m0 :: rest =>
          let moves := m0 :: rest
          let mv := moves.getD (rng.headD 0 % moves.length) m0
          rolloutLoop g s0 d (g.apply mv state) (-sign) (rng.tailD [])

/-- `MonteCarloTreeSearch::rollout`: uniform-random playout from `s` to a
terminal state or the depth cap, signed for the player to move in `s`. -/
def rollout (g : Game S M) (opts : MCTSOptions) (s : S) (rng : List Nat) :
    Except Pan (Int × List Nat) :=
  rolloutLoop g s opts.max_rollout_depth s 1 rng

/-- Modelled from the spec (§4.4), for comparison with `rolloutLoop`: the same
loop but enumerating legal moves from the current, evolving playout state
("Otherwise, enumerate legal moves, pick one uniformly at random, apply it to
advance the state, …"). -/
def rolloutLoopSpec (g : Game S M) :
    Nat → S → Int → List Nat → Except Pan (Int × List Nat)
  | depth, state, sign, rng =>
    match g.get_winner state with
    | some w => .ok (winVal w * sign, rng)
    | none =>
      match depth with
      | 0 => .ok (0, rng)
      | d + 1 =>
        match g.generate_moves state with
        | [] => .error .chooseEmpty
        | m0 :: rest =>
          let moves := m0 :: rest
          let mv := moves.getD (rng.headD 0 % moves.length) m0
          rolloutLoopSpec g d (g.apply mv state) (-sign) (rng.tailD [])

/-- Modelled from the spec (§4.4): `rollout` with the evolving-state move
enumeration. -/
def rolloutSpec (g : Game S M) (opts : MCTSOptions) (s : S) (rng : List Nat) :
    Except Pan (Int × List Nat) :=
  rolloutLoopSpec g opts.max_rollout_depth s 1 rng

/-- `Node::uct_score` on a child with the given statistics.  `exploration` is
`exploration_score` and `log_parent` is `log_parent_visits`; the child's `u32`
visit count and `i32` score appear after their exact `as f32` conversions. -/
def uctScore (ops : FOps) (exploration log_parent : F) (visits : Nat)
    (score : Int) : F :=
  if visits = 0 then
    if F.fgt exploration (F.fin 0) then F.posInf else F.fin 0
  else
    F.fadd (F.fdiv (F.fadd (F.fin score) (F.fin visits))
                   (F.fmul (F.fin 2) (F.fin visits)))
           (F.fmul exploration
                   (ops.fsqrt (F.fdiv (F.fmul (F.fin 2) log_parent)
                                      (F.fin visits))))

/-- The scan loop of `Node::best_child`: starting at index `i`, examine `k`
children in circular order over `children`, keeping the first child whose UCT
score strictly exceeds the best seen so far (initially `-∞`, i.e. `best`
absent). -/
def scanBest (ops : FOps) (exploration log_parent : F)
    (children : List (Node M)) :
    Nat → Nat → F → Option Nat → Option Nat
  | 0, _, _, best => best
  | k + 1, i, best_score, best =>
    let c := children.getD i (Node.new none)
    let score := uctScore ops exploration log_parent c.visits c.score
    if F.fgt score best_score then
      scanBest ops exploration log_parent children k
        ((i + 1) % children.length) score (some i)
    else
      scanBest ops exploration log_parent children k
        ((i + 1) % children.length) best_score best

/-- The body of `Node::best_child` once the expansion is known: draw the random
start index (`gen_range(0..n)` aborts when there are no children) and run the
scan over all `n` children. -/
def bestChildScan (ops : FOps) (exploration log_parent : F)
    (children : List (Node M)) (rng : List Nat) :
    Except Pan (Option Nat × List Nat) :=
  match children.length with
  | 0 => .error .emptyRange
  | _ + 1 =>
    .ok (scanBest ops exploration log_parent children children.length
           (rng.headD 0 % children.length) F.negInf none,
         rng.tailD [])

/-- `Node::best_child`: `None` when the node has no expansion; otherwise the
scan's choice among the children, scored against `log2` of this node's own
visit count. -/
def bestChild (ops : FOps) (exploration : F) (node : Node M) (rng : List Nat) :
    Except Pan (Option (Node M) × List Nat) :=
  match node.expansion with
  | none => .ok (none, rng)
  | some (_, children) =>
    match bestChildScan ops exploration (ops.flog2 (F.fin node.visits))
        children rng with
    | .error e => .error e
    | .ok (none, rng') => .ok (none, rng')
    | .ok (some i, rng') => .ok (some (children.getD i (Node.new none)), rng')

/-- The expand-then-continue branch of `simulate` on a node `⟨m0, v, sc, none⟩`
whose visit count has reached `rollouts_before_expanding`: install
`new_expansion`, then — with `force_rollout` now set — either record the
terminal verdict, or select a (fresh) child, apply its move, roll out from it
(`simulate` with `force_rollout = true` is exactly `update_stats(rollout)`),
and back-propagate the negated outcome. -/
def expandAndRollout (g : Game S M) (ops : FOps) (opts : MCTSOptions)
    (m0 : Option M) (v : Nat) (sc : Int) (s : S) (rng : List Nat) :
    Except Pan (Node M × Int × List Nat) :=
  match new_expansion g s with
  | (some w, cs) => .ok (⟨m0, v + 1, sc + winVal w, some (some w, cs)⟩, winVal w, rng)
  | (none, cs) =>
    match bestChildScan ops (F.fin 1) (ops.flog2 (F.fin v)) cs rng with
    | .error e => .error e
    | .ok (none, _) => .error .unwrapBest
    | .ok (some i, rng') =>
      if h : i < cs.length then
        let child := cs.get ⟨i, h⟩
        match child.m with
        | none => .error .unwrapMove
        | some mv =>
          match rollout g opts (g.apply mv s) rng' with
          | .error e => .error e
          | .ok (rc, rng'') =>
            .ok (⟨m0, v + 1, sc + -rc, some (none, cs.set i (updateStats child rc).1)⟩,
                 -rc, rng'')
      else .error .indexOob

/-- `MonteCarloTreeSearch::simulate`: one selection/expansion/rollout/
backpropagation pass from `node` with working state `s`.  A forced call
records a rollout outcome at `node` and stops; an unexpanded node below the
`rollouts_before_expanding` threshold is rolled out directly; an unexpanded
node at the threshold goes through `expandAndRollout`; a terminal expansion
records its verdict; otherwise the pass descends into `best_child(1.0)`,
negates the child's outcome and records it here. -/
def simulate (g : Game S M) (ops : FOps) (opts : MCTSOptions) :
    Node M → S → Bool → List Nat → Except Pan (Node M × Int × List Nat)
  | node, s, true, rng =>
    match rollout g opts s rng with
    | .error e => .error e
    | .ok (r, rng') => .ok ((updateStats node r).1, r, rng')
  | ⟨m0, v, sc, none⟩, s, false, rng =>
    if v < opts.rollouts_before_expanding then
      match rollout g opts s rng with
      | .error e => .error e
      | .ok (r, rng') => .ok ((updateStats (⟨m0, v, sc, none⟩ : Node M) r).1, r, rng')
    else
      expandAndRollout g ops opts m0 v sc s rng
  | ⟨m0, v, sc, some (some w, cs)⟩, _, false, rng =>
    .ok (⟨m0, v + 1, sc + winVal w, some (some w, cs)⟩, winVal w, rng)
  | ⟨m0, v, sc, some (none, cs)⟩, s, false, rng =>
    match bestChildScan ops (F.fin 1) (ops.flog2 (F.fin v)) cs rng with
    | .error e => .error e
    | .ok (none, _) => .error .unwrapBest
    | .ok (some i, rng') =>
      if h : i < cs.length then
        let child := cs.get ⟨i, h⟩
        match child.m with
        | none => .error .unwrapMove
        | some mv =>
          match simulate g ops opts child (g.apply mv s) false rng' with
          | .error e => .error e
          | .ok (child', r, rng'') =>
            .ok (⟨m0, v + 1, sc + -r, some (none, cs.set i child')⟩, -r, rng'')
      else .error .indexOob
  termination_by node _ _ _ => sizeOf node
  decreasing_by
    simp_wf
    have hmem : cs[i] ∈ cs := List.getElem_mem h
    have : sizeOf cs[i] < sizeOf cs := List.sizeOf_lt_of_mem hmem
    omega

/-- The root node built by `choose_move`: move-less, zeroed statistics, with
its expansion installed eagerly via `try_set(new_expansion(s))`. -/
def rootNode (g : Game S M) (s : S) : Node M :=
  ⟨none, 0, 0, some (new_expansion g s)⟩

/-- The pass loop of `choose_move`: `n` successive `simulate` calls from the
root, each starting at the (restored) input state with `force_rollout` unset. -/
def searchLoop (g : Game S M) (ops : FOps) (opts : MCTSOptions) :
    Nat → Node M → S → List Nat → Except Pan (Node M × List Nat)
  | 0, node, _, rng => .ok (node, rng)
  | n + 1, node, s, rng =>
    match simulate g ops opts node s false rng with
    | .error e => .error e
    | .ok (node', _, rng') => searchLoop g ops opts n node' s rng'

/-- `choose_move`: build the root with its eager expansion, run the configured
number of passes, then pick `best_child` with exploration weight `0` and
return its move. -/
def chooseMove (g : Game S M) (ops : FOps) (mcts : MonteCarloTreeSearch)
    (s : S) (rng : List Nat) : Except Pan (Option M) :=
  match searchLoop g ops mcts.options mcts.max_rollouts (rootNode g s) s rng with
  | .error e => .error e
  | .ok (root', rng') =>
    match bestChild ops (F.fin 0) root' rng' with
    | .error e => .error e
    | .ok (none, _) => .ok none
    | .ok (some nd, _) =>
      match nd.m with
      | none => .error .unwrapMove
      | some mv => .ok (some mv)

mutual

/-- The per-node statistics invariant of §8: `score` lies within
`[-visits, visits]`, at this node and at every node of its subtree. -/
def scoreInvB : Node M → Bool
  | ⟨_, v, sc, none⟩ => decide (sc.natAbs ≤ v)
  | ⟨_, v, sc, some (_, cs)⟩ => decide (sc.natAbs ≤ v) && scoreInvL cs

/-- `scoreInvB` over a child list. -/
def scoreInvL : List (Node M) → Bool
  | [] => true
  | c :: cs => scoreInvB c && scoreInvL cs

end

/-- Concrete `log2` oracle used only by closed witnesses, IEEE-exact at every
point where a witness evaluates it: `log2` of NaN, `-∞`, a negative is NaN, of
`+0` is `-∞`, of `+∞` is `+∞`, and of a power of two is its exact exponent
(other positive rationals get the floor of their log, an unrounded stand-in). -/
def flog2Impl : F → F
  | .nan => .nan
  | .negInf => .nan
  | .posInf => .posInf
  | .fin q =>
    if q < 0 then .nan
    else if q = 0 then .negInf
    else if q = 1 then .fin 0
    else .fin (Int.log 2 q)

/-- Concrete `sqrt` oracle used only by closed witnesses, IEEE-exact at every
point where a witness evaluates it: `sqrt` of NaN or a negative is NaN, of
`+∞` is `+∞`, of `0` is `0`, and of a perfect square is exact (other
non-negative rationals get `Rat.sqrt`, an unrounded stand-in of the right
sign). -/
def fsqrtImpl : F → F
  | .nan => .nan
  | .negInf => .nan
  | .posInf => .posInf
  | .fin q =>
    if q < 0 then .nan
    else if q = 0 then .fin 0
    else .fin (Rat.sqrt q)

/-- The concrete oracle instance for closed witnesses. -/
def FImpl : FOps := ⟨flog2Impl, fsqrtImpl⟩

/-- Witness game: from state `0` the single legal move `1` leads to state `1`,
a win for the player who just moved; every other state has no moves. -/
def gOne : Game Nat Nat :=
  { generate_moves := fun s => if s = 0 then [1] else []
  , get_winner := fun s => if s = 1 then some .PlayerJustMoved else none
  , apply := fun mv _ => mv }

/-- Degenerate-input game: no state has a legal move and no state is reported
terminal. -/
def gDeg : Game Nat Nat :=
  { generate_moves := fun _ => []
  , get_winner := fun _ => none
  , apply := fun mv _ => mv }

/-- Divergence game for the rollout enumeration: state `0` offers move `1`,
state `1` offers move `2`, state `2` is a win for the player who just moved;
moves go to the state of their own label. -/
def gChain : Game Nat Nat :=
  { generate_moves := fun s => if s = 0 then [1] else if s = 1 then [2] else []
  , get_winner := fun s => if s = 2 then some .PlayerJustMoved else none
  , apply := fun mv _ => mv }

mutual

/-- Every node of this subtree that sits inside an expansion carries a present
move (`m ≠ None`); the node itself is unconstrained (the root is move-less). -/
def nodesOk : Node M → Bool
  | ⟨_, _, _, none⟩ => true
  | ⟨_, _, _, some (_, cs)⟩ => nodesOkL cs

/-- `nodesOk` over a child list: each child has a present move and satisfies
`nodesOk` recursively. -/
def nodesOkL : List (Node M) → Bool
  | [] => true
  | c :: cs => (c.m.isSome && nodesOk c) && nodesOkL cs

end

/-! ## Basic lemmas -/

/-- Every node has positive `sizeOf` (used to found the fuel inductions). -/
theorem Node.sizeOf_pos (n : Node M) : 0 < sizeOf n := by
  cases n; simp_arith

/-- The terminal-outcome mapping only produces `-1`, `0` or `1`. -/
theorem winVal_cases (w : Winner) : winVal w = -1 ∨ winVal w = 0 ∨ winVal w = 1 := by
  cases w <;> simp [winVal]

/-- `winVal` is bounded by one in absolute value. -/
theorem winVal_natAbs_le (w : Winner) : (winVal w).natAbs ≤ 1 := by
  cases w <;> simp [winVal]

/-! ## Rollout lemmas -/

/-- A successful rollout loop, started with sign `±1`, only returns `-1`, `0`
or `1`. -/
theorem rolloutLoop_ok_range (g : Game S M) (s0 : S) :
    ∀ (depth : Nat) (state : S) (sign : Int), (sign = 1 ∨ sign = -1) →
    ∀ (rng : List Nat) (r : Int) (rng' : List Nat),
      rolloutLoop g s0 depth state sign rng = .ok (r, rng') →
      r = -1 ∨ r = 0 ∨ r = 1 := by
  intro depth
  induction depth with
  | zero =>
    intro state sign hsign rng r rng' h
    rw [rolloutLoop] at h
    cases hw : g.get_winner state with
    | some w =>
      rw [hw] at h
      simp only [Except.ok.injEq, Prod.mk.injEq] at h
      rcases winVal_cases w with hv | hv | hv <;>
        rcases hsign with hs | hs <;>
        simp [← h.1, hv, hs]
    | none =>
      rw [hw] at h
      simp only [Except.ok.injEq, Prod.mk.injEq] at h
      simp [← h.1]
  | succ d ih =>
    intro state sign hsign rng r rng' h
    rw [rolloutLoop] at h
    cases hw : g.get_winner state with
    | some w =>
      rw [hw] at h
      simp only [Except.ok.injEq, Prod.mk.injEq] at h
      rcases winVal_cases w with hv | hv | hv <;>
        rcases hsign with hs | hs <;>
        simp [← h.1, hv, hs]
    | none =>
      rw [hw] at h
      cases hm : g.generate_moves s0 with
      | nil => rw [hm] at h; exact absurd h (by simp)
      | cons m0 rest =>
        rw [hm] at h
        exact ih _ _ (by rcases hsign with hs | hs <;> simp [hs]) _ _ _ h

/-- A successful rollout only returns `-1`, `0` or `1`. -/
theorem rollout_ok_range (g : Game S M) (opts : MCTSOptions) (s : S)
    (rng : List Nat) (r : Int) (rng' : List Nat)
    (h : rollout g opts s rng = .ok (r, rng')) : r = -1 ∨ r = 0 ∨ r = 1 :=
  rolloutLoop_ok_range g s opts.max_rollout_depth s 1 (Or.inl rfl) rng r rng' h

/-- A successful rollout has result bounded by one in absolute value. -/
theorem rollout_ok_natAbs_le (g : Game S M) (opts : MCTSOptions) (s : S)
    (rng : List Nat) (r : Int) (rng' : List Nat)
    (h : rollout g opts s rng = .ok (r, rng')) : r.natAbs ≤ 1 := by
  rcases rollout_ok_range g opts s rng r rng' h with hr | hr | hr <;> simp [hr]

/-- The only abort the rollout loop can produce is `chooseEmpty` (the `unwrap`
of `moves.choose` on an empty move list). -/
theorem rolloutLoop_err (g : Game S M) (s0 : S) :
    ∀ (depth : Nat) (state : S) (sign : Int) (rng : List Nat) (e : Pan),
      rolloutLoop g s0 depth state sign rng = .error e → e = .chooseEmpty := by
  intro depth
  induction depth with
  | zero =>
    intro state sign rng e h
    rw [rolloutLoop] at h
    cases hw : g.get_winner state <;> rw [hw] at h <;> exact absurd h (by simp)
  | succ d ih =>
    intro state sign rng e h
    rw [rolloutLoop] at h
    cases hw : g.get_winner state with
    | some w => rw [hw] at h; exact absurd h (by simp)
    | none =>
      rw [hw] at h
      cases hm : g.generate_moves s0 with
      | nil => rw [hm] at h; simp only [Except.error.injEq] at h; exact h.symm
      | cons m0 rest => rw [hm] at h; exact ih _ _ _ _ h

/-- The only abort `rollout` can produce is `chooseEmpty`. -/
theorem rollout_err (g : Game S M) (opts : MCTSOptions) (s : S)
    (rng : List Nat) (e : Pan) (h : rollout g opts s rng = .error e) :
    e = .chooseEmpty :=
  rolloutLoop_err g s opts.max_rollout_depth s 1 rng e h

/-! ## Selection-scan lemmas -/

/-- Once the scan has a candidate it never loses it. -/
theorem scanBest_some_ne_none (ops : FOps) (e lg : F) (cs : List (Node M)) :
    ∀ (k i : Nat) (bs : F) (j : Nat),
      scanBest ops e lg cs k i bs (some j) ≠ none := by
  intro k
  induction k with
  | zero => intro i bs j; rw [scanBest]; simp
  | succ n ih =>
    intro i bs j
    rw [scanBest]
    split
    · exact ih _ _ _
    · exact ih _ _ _

/-- Every candidate the scan returns is an in-range child index. -/
theorem scanBest_some_lt (ops : FOps) (e lg : F) (cs : List (Node M)) :
    ∀ (k i : Nat) (bs : F) (best : Option Nat),
      i < cs.length → (∀ j, best = some j → j < cs.length) →
      ∀ j, scanBest ops e lg cs k i bs best = some j → j < cs.length := by
  intro k
  induction k with
  | zero =>
    intro i bs best hi hbest j h
    rw [scanBest] at h
    exact hbest j h
  | succ n ih =>
    intro i bs best hi hbest j h
    rw [scanBest] at h
    have hlen : 0 < cs.length := Nat.lt_of_le_of_lt (Nat.zero_le i) hi
    have hi' : (i + 1) % cs.length < cs.length := Nat.mod_lt _ hlen
    split at h
    · exact ih _ _ _ hi' (by intro j' hj'; cases hj'; exact hi) j h
    · exact ih _ _ _ hi' hbest j h

/-- If a full scan starting from a `-∞` score with no candidate comes back
empty, then no examined child had a UCT score strictly above `-∞`. -/
theorem scanBest_none_all (ops : FOps) (e lg : F) (cs : List (Node M)) :
    ∀ (k i : Nat), i < cs.length →
      scanBest ops e lg cs k i F.negInf none = none →
      ∀ t, t < k →
        F.fgt (uctScore ops e lg
            (cs.getD ((i + t) % cs.length) (Node.new none)).visits
            (cs.getD ((i + t) % cs.length) (Node.new none)).score)
          F.negInf = false := by
  intro k
  induction k with
  | zero => intro i _ _ t ht; omega
  | succ n ih =>
    intro i hi hnone t ht
    rw [scanBest] at hnone
    have hlen : 0 < cs.length := Nat.lt_of_le_of_lt (Nat.zero_le i) hi
    have hi' : (i + 1) % cs.length < cs.length := Nat.mod_lt _ hlen
    split at hnone
    · exact absurd hnone (scanBest_some_ne_none ops e lg cs _ _ _ _)
    · rename_i hfgt
      cases t with
      | zero =>
        have : (i + 0) % cs.length = i := by
          rw [Nat.add_zero, Nat.mod_eq_of_lt hi]
        rw [this]
        exact Bool.not_eq_true _ ▸ (by simpa using hfgt)
      | succ t' =>
        have hidx : (i + (t' + 1)) % cs.length = ((i + 1) % cs.length + t') % cs.length := by
          rw [Nat.mod_add_mod]
          congr 1
          omega
        rw [hidx]
        exact ih _ hi' hnone t' (by omega)

/-- Circular coverage: a scan of `len` steps starting at any in-range index
visits every in-range index. -/
theorem mod_coverage (len i0 j : Nat) (hi0 : i0 < len) (hj : j < len) :
    ∃ t, t < len ∧ (i0 + t) % len = j := by
  refine ⟨(j + len - i0) % len, Nat.mod_lt _ (by omega), ?_⟩
  have h1 : (i0 + (j + len - i0) % len) % len = (i0 + (j + len - i0)) % len :=
    Nat.add_mod_mod i0 (j + len - i0) len
  have h2 : i0 + (j + len - i0) = j + len := by omega
  rw [h1, h2, Nat.add_mod_right, Nat.mod_eq_of_lt hj]

/-- `bestChildScan` on a non-empty child list: the random start index is drawn
and the full scan runs. -/
theorem bestChildScan_eq (ops : FOps) (e lg : F) (cs : List (Node M))
    (rng : List Nat) (hlen : 0 < cs.length) :
    bestChildScan ops e lg cs rng =
      .ok (scanBest ops e lg cs cs.length (rng.headD 0 % cs.length) F.negInf none,
           rng.tailD []) := by
  obtain ⟨n, hn⟩ : ∃ n, cs.length = n + 1 := ⟨cs.length - 1, by omega⟩
  simp only [bestChildScan, hn]

/-- `bestChildScan` on an empty child list aborts: `gen_range(0..0)`. -/
theorem bestChildScan_zero (ops : FOps) (e lg : F) (cs : List (Node M))
    (rng : List Nat) (h : cs.length = 0) :
    bestChildScan ops e lg cs rng = .error .emptyRange := by
  simp only [bestChildScan, h]

/-- Unfolding of `best_child` on a node with a present expansion. -/
theorem bestChild_eq_of_expansion (ops : FOps) (e : F) (node : Node M)
    (rng : List Nat) (wi : Option Winner) (cs : List (Node M))
    (hexp : node.expansion = some (wi, cs)) :
    bestChild ops e node rng =
      (match bestChildScan ops e (ops.flog2 (F.fin node.visits)) cs rng with
        | .error e' => .error e'
        | .ok (none, rng') => .ok (none, rng')
        | .ok (some i, rng') => .ok (some (cs.getD i (Node.new none)), rng')) := by
  cases node with
  | mk m0 v sc exp =>
    simp only [Node.expansion] at hexp
    subst hexp
    rfl

/-- Characterisation of a successful, child-returning `best_child` call: the
returned node is one of the children (at an in-range index) and one random
draw was consumed. -/
theorem bestChild_ok_char (ops : FOps) (e : F) (node : Node M)
    (rng rng₂ : List Nat) (nd : Node M)
    (h : bestChild ops e node rng = .ok (some nd, rng₂)) :
    ∃ wi cs j, ∃ hj : j < cs.length,
      node.expansion = some (wi, cs) ∧ nd = cs.get ⟨j, hj⟩ ∧
      rng₂ = rng.tailD [] := by
  cases hexp : node.expansion with
  | none =>
    rw [bestChild, hexp] at h
    exact absurd h (by simp)
  | some p =>
    obtain ⟨wi, cs⟩ := p
    rw [bestChild_eq_of_expansion ops e node rng wi cs hexp] at h
    have hlen : 0 < cs.length := by
      by_contra hl
      have hz : cs.length = 0 := by omega
      rw [bestChildScan_zero ops e _ cs rng hz] at h
      exact absurd h (by simp)
    rw [bestChildScan_eq ops e _ cs rng hlen] at h
    cases hscan : scanBest ops e (ops.flog2 (F.fin node.visits)) cs cs.length
        (rng.headD 0 % cs.length) F.negInf none with
    | none => rw [hscan] at h; exact absurd h (by simp)
    | some i =>
      rw [hscan] at h
      simp only [Except.ok.injEq, Prod.mk.injEq, Option.some.injEq] at h
      have hi : i < cs.length :=
        scanBest_some_lt ops e _ cs cs.length (rng.headD 0 % cs.length)
          F.negInf none (Nat.mod_lt _ hlen) (by intro j hj; cases hj) i hscan
      refine ⟨wi, cs, i, hi, rfl, ?_, h.2.symm⟩
      rw [← h.1, List.get_eq_getElem]
      show cs.getD i (Node.new none) = cs[i]
      exact List.getD_eq_getElem cs (Node.new none) hi

/-- If some child's UCT score is strictly above `-∞`, `best_child` returns one
of the children. -/
theorem bestChild_some_of_exists (ops : FOps) (e : F) (node : Node M)
    (rng : List Nat) (wi : Option Winner) (cs : List (Node M))
    (hexp : node.expansion = some (wi, cs)) (hlen : 0 < cs.length)
    (hex : ∃ j, ∃ hj : j < cs.length,
      F.fgt (uctScore ops e (ops.flog2 (F.fin node.visits))
          (cs.get ⟨j, hj⟩).visits (cs.get ⟨j, hj⟩).score) F.negInf = true) :
    ∃ j, ∃ hj : j < cs.length,
      bestChild ops e node rng = .ok (some (cs.get ⟨j, hj⟩), rng.tailD []) := by
  rw [bestChild_eq_of_expansion ops e node rng wi cs hexp,
    bestChildScan_eq ops e _ cs rng hlen]
  cases hscan : scanBest ops e (ops.flog2 (F.fin node.visits)) cs cs.length
      (rng.headD 0 % cs.length) F.negInf none with
  | none =>
    exfalso
    obtain ⟨j, hj, hfgt⟩ := hex
    obtain ⟨t, ht, hidx⟩ := mod_coverage cs.length (rng.headD 0 % cs.length) j
      (Nat.mod_lt _ hlen) hj
    have h2 := scanBest_none_all ops e (ops.flog2 (F.fin node.visits)) cs
      cs.length (rng.headD 0 % cs.length) (Nat.mod_lt _ hlen) hscan t ht
    rw [hidx, List.getD_eq_getElem cs (Node.new none) hj] at h2
    rw [List.get_eq_getElem] at hfgt
    rw [hfgt] at h2
    exact absurd h2 (by simp)
  | some i =>
    have hi : i < cs.length :=
      scanBest_some_lt ops e _ cs cs.length (rng.headD 0 % cs.length)
        F.negInf none (Nat.mod_lt _ hlen) (by intro j hj; cases hj) i hscan
    refine ⟨i, hi, ?_⟩
    dsimp only
    rw [List.getD_eq_getElem cs (Node.new none) hi, List.get_eq_getElem]

/-! ## Invariant-predicate lemmas -/

/-- `scoreInvL` is the conjunction of `scoreInvB` over the list. -/
theorem scoreInvL_iff (cs : List (Node M)) :
    scoreInvL cs = true ↔ ∀ c ∈ cs, scoreInvB c = true := by
  induction cs with
  | nil => simp [scoreInvL]
  | cons c cs ih => simp [scoreInvL, ih]

/-- Updating one child to a value satisfying the invariant preserves the list
invariant. -/
theorem scoreInvL_set (cs : List (Node M)) (i : Nat) (c' : Node M)
    (hcs : scoreInvL cs = true) (hc' : scoreInvB c' = true) :
    scoreInvL (cs.set i c') = true := by
  rw [scoreInvL_iff] at hcs ⊢
  intro c hc
  rcases List.mem_or_eq_of_mem_set hc with h | h
  · exact hcs c h
  · rw [h]; exact hc'

/-- `nodesOkL` is the conjunction of move-presence and `nodesOk` over the
list. -/
theorem nodesOkL_iff (cs : List (Node M)) :
    nodesOkL cs = true ↔ ∀ c ∈ cs, c.m.isSome = true ∧ nodesOk c = true := by
  induction cs with
  | nil => simp [nodesOkL]
  | cons c cs ih =>
    simp only [nodesOkL, Bool.and_eq_true, ih, List.mem_cons]
    constructor
    · rintro ⟨⟨h1, h2⟩, h3⟩ c' (rfl | hc')
      · exact ⟨h1, h2⟩
      · exact h3 c' hc'
    · intro h
      exact ⟨⟨(h c (Or.inl rfl)).1, (h c (Or.inl rfl)).2⟩,
        fun c' hc' => h c' (Or.inr hc')⟩

/-- Updating one child to a move-carrying value satisfying `nodesOk` preserves
the list predicate. -/
theorem nodesOkL_set (cs : List (Node M)) (i : Nat) (c' : Node M)
    (hcs : nodesOkL cs = true) (hm : c'.m.isSome = true)
    (hc' : nodesOk c' = true) : nodesOkL (cs.set i c') = true := by
  rw [nodesOkL_iff] at hcs ⊢
  intro c hc
  rcases List.mem_or_eq_of_mem_set hc with h | h
  · exact hcs c h
  · rw [h]; exact ⟨hm, hc'⟩

/-- Every child produced by `new_expansion` is a fresh node: it carries a
present move, zeroed statistics, and no expansion. -/
theorem new_expansion_children (g : Game S M) (s : S) :
    ∀ c ∈ (new_expansion g s).2, ∃ mv, c = Node.new (some mv) := by
  intro c hc
  rw [new_expansion] at hc
  cases hw : g.get_winner s with
  | some w => rw [hw] at hc; simp at hc
  | none =>
    rw [hw] at hc
    simp only [List.mem_map] at hc
    obtain ⟨mv, _, rfl⟩ := hc
    exact ⟨mv, rfl⟩

/-- The children of a fresh expansion satisfy the score invariant. -/
theorem scoreInvL_new_expansion (g : Game S M) (s : S) :
    scoreInvL (new_expansion g s).2 = true := by
  rw [scoreInvL_iff]
  intro c hc
  obtain ⟨mv, rfl⟩ := new_expansion_children g s c hc
  simp [Node.new, scoreInvB]

/-- The children of a fresh expansion carry moves and satisfy `nodesOk`. -/
theorem nodesOkL_new_expansion (g : Game S M) (s : S) :
    nodesOkL (new_expansion g s).2 = true := by
  rw [nodesOkL_iff]
  intro c hc
  obtain ⟨mv, rfl⟩ := new_expansion_children g s c hc
  simp [Node.new, Node.m, nodesOk]

/-- When the expanded state is terminal, the expansion has no children. -/
theorem new_expansion_terminal (g : Game S M) (s : S) (w : Winner)
    (hw : g.get_winner s = some w) : new_expansion g s = (some w, []) := by
  rw [new_expansion, hw]

/-- When the expanded state is not terminal, the winner slot is empty. -/
theorem new_expansion_nonterminal (g : Game S M) (s : S)
    (hw : g.get_winner s = none) :
    new_expansion g s =
      (none, (g.generate_moves s).map (fun mv => Node.new (some mv))) := by
  rw [new_expansion, hw]

/-! ## Expansion-branch lemmas -/

/-- Master lemma for the expand-and-rollout branch: a successful run updates
the statistics of the current node by one visit and the recorded outcome,
keeps its move, installs an expansion, returns an outcome bounded by one, and
preserves the score invariant and move-presence of the subtree. -/
theorem expandAndRollout_master (g : Game S M) (ops : FOps)
    (opts : MCTSOptions) (m0 : Option M) (v : Nat) (sc : Int) (s : S)
    (rng : List Nat) (node' : Node M) (r : Int) (rng' : List Nat)
    (h : expandAndRollout g ops opts m0 v sc s rng = .ok (node', r, rng')) :
    node'.visits = v + 1 ∧ node'.score = sc + r ∧ node'.m = m0 ∧
    r.natAbs ≤ 1 ∧ node'.expansion.isSome = true ∧
    (sc.natAbs ≤ v → scoreInvB node' = true) ∧ nodesOk node' = true := by
  rw [expandAndRollout] at h
  cases hw : g.get_winner s with
  | some w =>
    rw [new_expansion_terminal g s w hw] at h
    dsimp only at h
    simp only [Except.ok.injEq, Prod.mk.injEq] at h
    obtain ⟨hn, hr, hrng⟩ := h
    subst hn; subst hr
    refine ⟨rfl, rfl, rfl, winVal_natAbs_le w, rfl, ?_, ?_⟩
    · intro hsc
      simp only [scoreInvB, scoreInvL, Bool.and_true, decide_eq_true_eq]
      have h1 := Int.natAbs_add_le sc (winVal w)
      have h2 := winVal_natAbs_le w
      omega
    · simp [nodesOk, nodesOkL]
  | none =>
    rw [new_expansion_nonterminal g s hw] at h
    dsimp only at h
    have hsnd : (new_expansion g s).2
        = (g.generate_moves s).map (fun mv => Node.new (some mv)) := by
      rw [new_expansion_nonterminal g s hw]
    set cs := (g.generate_moves s).map (fun mv => Node.new (some mv)) with hcs
    cases hbs : bestChildScan ops (F.fin 1) (ops.flog2 (F.fin v)) cs rng with
    | error e => rw [hbs] at h; exact absurd h (by simp)
    | ok p =>
      obtain ⟨oi, rng1⟩ := p
      cases oi with
      | none => rw [hbs] at h; exact absurd h (by simp)
      | some i =>
        rw [hbs] at h
        dsimp only at h
        by_cases hlt : i < cs.length
        · rw [dif_pos hlt] at h
          have hmem : cs.get ⟨i, hlt⟩ ∈ cs := List.get_mem cs i hlt
          obtain ⟨mv', hchild⟩ :=
            new_expansion_children g s _ (by rw [hsnd]; exact hmem)
          rw [hchild] at h
          simp only [Node.new, Node.m, Node.visits, Node.score, Node.expansion,
            updateStats] at h
          cases hro : rollout g opts (g.apply mv' s) rng1 with
          | error e => rw [hro] at h; exact absurd h (by simp)
          | ok q =>
            obtain ⟨rc, rng2⟩ := q
            rw [hro] at h
            dsimp only at h
            simp only [Except.ok.injEq, Prod.mk.injEq] at h
            obtain ⟨hn, hr, hrng⟩ := h
            subst hn; subst hr
            have hrc : rc.natAbs ≤ 1 := rollout_ok_natAbs_le g opts _ _ _ _ hro
            refine ⟨rfl, rfl, rfl, ?_, rfl, ?_, ?_⟩
            · show (-rc).natAbs ≤ 1
              omega
            · intro hsc
              simp only [scoreInvB, Bool.and_eq_true, decide_eq_true_eq]
              refine ⟨by omega, ?_⟩
              refine scoreInvL_set cs i _
                (by rw [← hsnd]; exact scoreInvL_new_expansion g s) ?_
              simp only [scoreInvB, decide_eq_true_eq]
              omega
            · simp only [nodesOk]
              refine nodesOkL_set cs i _
                (by rw [← hsnd]; exact nodesOkL_new_expansion g s) ?_ ?_
              · simp [Node.m]
              · simp [nodesOk]
        · rw [dif_neg hlt] at h
          exact absurd h (by simp)

/-- Field-level description of `update_stats`: `visits` goes up by one,
`score` absorbs the outcome, everything else is untouched, and the outcome is
returned unchanged. -/
theorem updateStats_facts (nd : Node M) (r : Int) :
    (updateStats nd r).1.visits = nd.visits + 1 ∧
    (updateStats nd r).1.score = nd.score + r ∧
    (updateStats nd r).1.m = nd.m ∧
    (updateStats nd r).1.expansion = nd.expansion ∧
    (updateStats nd r).2 = r := by
  cases nd
  simp [updateStats, Node.visits, Node.score, Node.m, Node.expansion]

/-- `update_stats` with an outcome bounded by one preserves the score
invariant. -/
theorem scoreInvB_updateStats (nd : Node M) (r : Int)
    (hnd : scoreInvB nd = true) (hr : r.natAbs ≤ 1) :
    scoreInvB (updateStats nd r).1 = true := by
  cases nd with
  | mk m0 v sc exp =>
    cases exp with
    | none =>
      simp only [scoreInvB, decide_eq_true_eq] at hnd
      simp only [updateStats, Node.m, Node.visits, Node.score, Node.expansion,
        scoreInvB, decide_eq_true_eq]
      omega
    | some p =>
      obtain ⟨wi, cs⟩ := p
      simp only [scoreInvB, Bool.and_eq_true, decide_eq_true_eq] at hnd
      simp only [updateStats, Node.m, Node.visits, Node.score, Node.expansion,
        scoreInvB, Bool.and_eq_true, decide_eq_true_eq]
      exact ⟨by omega, hnd.2⟩

/-- `update_stats` leaves the expansion alone, so move-presence of the subtree
is preserved. -/
theorem nodesOk_updateStats (nd : Node M) (r : Int)
    (hnd : nodesOk nd = true) : nodesOk (updateStats nd r).1 = true := by
  cases nd with
  | mk m0 v sc exp =>
    cases exp with
    | none => simp [updateStats, Node.m, Node.visits, Node.score, Node.expansion, nodesOk]
    | some p =>
      obtain ⟨wi, cs⟩ := p
      simp only [nodesOk] at hnd
      simp only [updateStats, Node.m, Node.visits, Node.score, Node.expansion, nodesOk]
      exact hnd

/-- The only abort `bestChildScan` can produce is `gen_range` on an empty
range. -/
theorem bestChildScan_err (ops : FOps) (e lg : F) (cs : List (Node M))
    (rng : List Nat) (e' : Pan)
    (h : bestChildScan ops e lg cs rng = .error e') : e' = .emptyRange := by
  by_cases hl : cs.length = 0
  · rw [bestChildScan_zero ops e lg cs rng hl] at h
    simpa using h.symm
  · rw [bestChildScan_eq ops e lg cs rng (by omega)] at h
    exact absurd h (by simp)

/-- The expand-and-rollout branch never aborts at a move `unwrap`: the freshly
created children all carry moves. -/
theorem expandAndRollout_ne_unwrapMove (g : Game S M) (ops : FOps)
    (opts : MCTSOptions) (m0 : Option M) (v : Nat) (sc : Int) (s : S)
    (rng : List Nat) :
    expandAndRollout g ops opts m0 v sc s rng ≠ .error .unwrapMove := by
  intro h
  rw [expandAndRollout] at h
  cases hw : g.get_winner s with
  | some w =>
    rw [new_expansion_terminal g s w hw] at h
    exact absurd h (by simp)
  | none =>
    rw [new_expansion_nonterminal g s hw] at h
    dsimp only at h
    have hsnd : (new_expansion g s).2
        = (g.generate_moves s).map (fun mv => Node.new (some mv)) := by
      rw [new_expansion_nonterminal g s hw]
    set cs := (g.generate_moves s).map (fun mv => Node.new (some mv)) with hcs
    cases hbs : bestChildScan ops (F.fin 1) (ops.flog2 (F.fin v)) cs rng with
    | error e =>
      rw [hbs] at h
      have he := bestChildScan_err ops (F.fin 1) (ops.flog2 (F.fin v)) cs rng e hbs
      simp only [Except.error.injEq] at h
      rw [he] at h
      exact absurd h (by simp)
    | ok p =>
      obtain ⟨oi, rng1⟩ := p
      cases oi with
      | none => rw [hbs] at h; simp at h
      | some i =>
        rw [hbs] at h
        dsimp only at h
        by_cases hlt : i < cs.length
        · rw [dif_pos hlt] at h
          have hmem : cs.get ⟨i, hlt⟩ ∈ cs := List.get_mem cs i hlt
          obtain ⟨mv', hchild⟩ :=
            new_expansion_children g s _ (by rw [hsnd]; exact hmem)
          rw [hchild] at h
          simp only [Node.new, Node.m] at h
          cases hro : rollout g opts (g.apply mv' s) rng1 with
          | error e =>
            rw [hro] at h
            have := rollout_err g opts _ _ _ hro
            simp only [Except.error.injEq] at h
            rw [this] at h
            exact absurd h (by simp)
          | ok q =>
            obtain ⟨rc, rng2⟩ := q
            rw [hro] at h
            simp at h
        · rw [dif_neg hlt] at h
          simp at h

/-! ## Master lemma for `simulate` -/

/-- Size bookkeeping: a child of a node's expansion is smaller than the
node. -/
theorem child_sizeOf_lt (m0 : Option M) (v : Nat) (sc : Int)
    (wi : Option Winner) (cs : List (Node M)) (i : Nat) (hlt : i < cs.length) :
    sizeOf (cs.get ⟨i, hlt⟩) < sizeOf (Node.mk m0 v sc (some (wi, cs))) := by
  have h1 := List.sizeOf_lt_of_mem (List.get_mem cs i hlt)
  simp only [Node.mk.sizeOf_spec, Option.some.sizeOf_spec, Prod.mk.sizeOf_spec]
  omega

/-- Master lemma: a successful pass through a node adds exactly one visit and
the returned outcome to that node's statistics, keeps its move, returns an
outcome bounded by one, and preserves both the score invariant and
move-presence of the subtree. -/
theorem simulate_master (g : Game S M) (ops : FOps) (opts : MCTSOptions) :
    ∀ (fuel : Nat) (node : Node M), sizeOf node ≤ fuel →
    ∀ (s : S) (force : Bool) (rng : List Nat) (node' : Node M) (r : Int)
      (rng' : List Nat),
      simulate g ops opts node s force rng = .ok (node', r, rng') →
      node'.visits = node.visits + 1 ∧ node'.score = node.score + r ∧
      node'.m = node.m ∧ r.natAbs ≤ 1 ∧
      (scoreInvB node = true → scoreInvB node' = true) ∧
      (nodesOk node = true → nodesOk node' = true) := by
  intro fuel
  induction fuel with
  | zero =>
    intro node hsz
    have := Node.sizeOf_pos node
    omega
  | succ n ih =>
    intro node hsz s force rng node' r rng' h
    cases force with
    | true =>
      simp only [simulate] at h
      cases hro : rollout g opts s rng with
      | error e => rw [hro] at h; exact absurd h (by simp)
      | ok q =>
        obtain ⟨rc, rng2⟩ := q
        rw [hro] at h
        simp only [Except.ok.injEq, Prod.mk.injEq] at h
        obtain ⟨hn, hr, hrng⟩ := h
        subst hn; subst hr
        have hrc := rollout_ok_natAbs_le g opts _ _ _ _ hro
        obtain ⟨h1, h2, h3, h4, _⟩ := updateStats_facts node rc
        exact ⟨h1, h2, h3, hrc,
          fun hs => scoreInvB_updateStats node rc hs hrc,
          fun hs => nodesOk_updateStats node rc hs⟩
    | false =>
      cases node with
      | mk m0 v sc exp =>
        cases exp with
        | none =>
          simp only [simulate] at h
          split at h
          · cases hro : rollout g opts s rng with
            | error e => rw [hro] at h; exact absurd h (by simp)
            | ok q =>
              obtain ⟨rc, rng2⟩ := q
              rw [hro] at h
              simp only [Except.ok.injEq, Prod.mk.injEq] at h
              obtain ⟨hn, hr, hrng⟩ := h
              subst hn; subst hr
              have hrc := rollout_ok_natAbs_le g opts _ _ _ _ hro
              obtain ⟨h1, h2, h3, h4, _⟩ :=
                updateStats_facts (Node.mk m0 v sc none : Node M) rc
              exact ⟨h1, h2, h3, hrc,
                fun hs => scoreInvB_updateStats _ rc hs hrc,
                fun hs => nodesOk_updateStats _ rc hs⟩
          · obtain ⟨h1, h2, h3, h4, h5, h6, h7⟩ :=
              expandAndRollout_master g ops opts m0 v sc s rng node' r rng' h
            refine ⟨h1, h2, h3, h4, ?_, fun _ => h7⟩
            intro hs
            simp only [scoreInvB, decide_eq_true_eq] at hs
            exact h6 hs
        | some p =>
          obtain ⟨wi, cs⟩ := p
          cases wi with
          | some w =>
            simp only [simulate] at h
            simp only [Except.ok.injEq, Prod.mk.injEq] at h
            obtain ⟨hn, hr, hrng⟩ := h
            subst hn; subst hr
            refine ⟨rfl, rfl, rfl, winVal_natAbs_le w, ?_, ?_⟩
            · intro hs
              simp only [scoreInvB, Bool.and_eq_true, decide_eq_true_eq] at hs ⊢
              have := winVal_natAbs_le w
              have := Int.natAbs_add_le sc (winVal w)
              exact ⟨by omega, hs.2⟩
            · intro hs
              simpa only [nodesOk] using hs
          | none =>
            simp only [simulate] at h
            cases hbs : bestChildScan ops (F.fin 1) (ops.flog2 (F.fin v)) cs rng with
            | error e => rw [hbs] at h; exact absurd h (by simp)
            | ok p =>
              obtain ⟨oi, rng1⟩ := p
              cases oi with
              | none => rw [hbs] at h; exact absurd h (by simp)
              | some i =>
                rw [hbs] at h
                dsimp only at h
                by_cases hlt : i < cs.length
                · rw [dif_pos hlt] at h
                  cases hm : (cs.get ⟨i, hlt⟩).m with
                  | none => rw [hm] at h; exact absurd h (by simp)
                  | some mv =>
                    rw [hm] at h
                    dsimp only at h
                    cases hrec : simulate g ops opts (cs.get ⟨i, hlt⟩)
                        (g.apply mv s) false rng1 with
                    | error e => rw [hrec] at h; exact absurd h (by simp)
                    | ok q =>
                      obtain ⟨child', rc, rng2⟩ := q
                      rw [hrec] at h
                      simp only [Except.ok.injEq, Prod.mk.injEq] at h
                      obtain ⟨hn, hr, hrng⟩ := h
                      subst hn; subst hr
                      have hszc : sizeOf (cs.get ⟨i, hlt⟩) ≤ n := by
                        have := child_sizeOf_lt m0 v sc none cs i hlt
                        omega
                      obtain ⟨hv, hsc', hm', hrb, hinv, hok⟩ :=
                        ih _ hszc _ _ _ _ _ _ hrec
                      refine ⟨rfl, rfl, rfl, by omega, ?_, ?_⟩
                      · intro hs
                        simp only [scoreInvB, Bool.and_eq_true,
                          decide_eq_true_eq] at hs ⊢
                        refine ⟨by omega, ?_⟩
                        refine scoreInvL_set cs i child' hs.2 ?_
                        exact hinv ((scoreInvL_iff cs).1 hs.2 _
                          (List.get_mem cs i hlt))
                      · intro hs
                        simp only [nodesOk] at hs ⊢
                        have hcsall := (nodesOkL_iff cs).1 hs _ (List.get_mem cs i hlt)
                        refine nodesOkL_set cs i child' hs ?_ (hok hcsall.2)
                        rw [hm']
                        exact hcsall.1
                · rw [dif_neg hlt] at h
                  exact absurd h (by simp)

/-- A pass through a tree whose expansion children all carry moves never
aborts at a move `unwrap`. -/
theorem simulate_ne_unwrapMove (g : Game S M) (ops : FOps)
    (opts : MCTSOptions) :
    ∀ (fuel : Nat) (node : Node M), sizeOf node ≤ fuel →
    nodesOk node = true →
    ∀ (s : S) (force : Bool) (rng : List Nat),
      simulate g ops opts node s force rng ≠ .error .unwrapMove := by
  intro fuel
  induction fuel with
  | zero =>
    intro node hsz
    have := Node.sizeOf_pos node
    omega
  | succ n ih =>
    intro node hsz hok s force rng h
    cases force with
    | true =>
      simp only [simulate] at h
      cases hro : rollout g opts s rng with
      | error e =>
        rw [hro] at h
        have := rollout_err g opts _ _ _ hro
        simp only [Except.error.injEq] at h
        rw [this] at h
        exact absurd h (by simp)
      | ok q => obtain ⟨rc, rng2⟩ := q; rw [hro] at h; exact absurd h (by simp)
    | false =>
      cases node with
      | mk m0 v sc exp =>
        cases exp with
        | none =>
          simp only [simulate] at h
          split at h
          · cases hro : rollout g opts s rng with
            | error e =>
              rw [hro] at h
              have := rollout_err g opts _ _ _ hro
              simp only [Except.error.injEq] at h
              rw [this] at h
              exact absurd h (by simp)
            | ok q =>
              obtain ⟨rc, rng2⟩ := q; rw [hro] at h; exact absurd h (by simp)
          · exact expandAndRollout_ne_unwrapMove g ops opts m0 v sc s rng h
        | some p =>
          obtain ⟨wi, cs⟩ := p
          cases wi with
          | some w => simp only [simulate] at h; exact absurd h (by simp)
          | none =>
            simp only [simulate] at h
            cases hbs : bestChildScan ops (F.fin 1) (ops.flog2 (F.fin v)) cs rng with
            | error e =>
              rw [hbs] at h
              have := bestChildScan_err ops _ _ cs rng e hbs
              simp only [Except.error.injEq] at h
              rw [this] at h
              exact absurd h (by simp)
            | ok p =>
              obtain ⟨oi, rng1⟩ := p
              cases oi with
              | none => rw [hbs] at h; exact absurd h (by simp)
              | some i =>
                rw [hbs] at h
                dsimp only at h
                by_cases hlt : i < cs.length
                · rw [dif_pos hlt] at h
                  have hcsall := (nodesOkL_iff cs).1 (by simpa only [nodesOk] using hok)
                    _ (List.get_mem cs i hlt)
                  cases hm : (cs.get ⟨i, hlt⟩).m with
                  | none => rw [hm] at hcsall; exact absurd hcsall.1 (by simp)
                  | some mv =>
                    rw [hm] at h
                    dsimp only at h
                    cases hrec : simulate g ops opts (cs.get ⟨i, hlt⟩)
                        (g.apply mv s) false rng1 with
                    | error e =>
                      rw [hrec] at h
                      simp only [Except.error.injEq] at h
                      subst h
                      have hszc : sizeOf (cs.get ⟨i, hlt⟩) ≤ n := by
                        have := child_sizeOf_lt m0 v sc none cs i hlt
                        omega
                      exact ih _ hszc hcsall.2 _ _ _ hrec
                    | ok q =>
                      obtain ⟨child', rc, rng2⟩ := q
                      rw [hrec] at h
                      exact absurd h (by simp)
                · rw [dif_neg hlt] at h
                  exact absurd h (by simp)

/-! ## Search-loop lemmas -/

/-- `N` successful passes add exactly `N` visits to the root and preserve the
subtree invariants. -/
theorem searchLoop_ok (g : Game S M) (ops : FOps) (opts : MCTSOptions) :
    ∀ (N : Nat) (node : Node M) (s : S) (rng : List Nat) (node' : Node M)
      (rng' : List Nat),
      searchLoop g ops opts N node s rng = .ok (node', rng') →
      node'.visits = node.visits + N ∧
      (scoreInvB node = true → scoreInvB node' = true) ∧
      (nodesOk node = true → nodesOk node' = true) := by
  intro N
  induction N with
  | zero =>
    intro node s rng node' rng' h
    rw [searchLoop] at h
    simp only [Except.ok.injEq, Prod.mk.injEq] at h
    obtain ⟨hn, hrng⟩ := h
    subst hn
    exact ⟨rfl, fun hs => hs, fun hs => hs⟩
  | succ N ih =>
    intro node s rng node' rng' h
    rw [searchLoop] at h
    cases hsim : simulate g ops opts node s false rng with
    | error e => rw [hsim] at h; exact absurd h (by simp)
    | ok q =>
      obtain ⟨node1, r1, rng1⟩ := q
      rw [hsim] at h
      obtain ⟨hv, hsc, hm, hrb, hinv, hok⟩ :=
        simulate_master g ops opts (sizeOf node) node (le_refl _) _ _ _ _ _ _ hsim
      obtain ⟨hv', hinv', hok'⟩ := ih node1 s rng1 node' rng' h
      exact ⟨by omega, fun hs => hinv' (hinv hs), fun hs => hok' (hok hs)⟩

/-- A failing pass loop over a move-carrying tree never aborts at a move
`unwrap`. -/
theorem searchLoop_err (g : Game S M) (ops : FOps) (opts : MCTSOptions) :
    ∀ (N : Nat) (node : Node M) (s : S) (rng : List Nat) (e : Pan),
      nodesOk node = true →
      searchLoop g ops opts N node s rng = .error e → e ≠ .unwrapMove := by
  intro N
  induction N with
  | zero =>
    intro node s rng e _ h
    rw [searchLoop] at h
    exact absurd h (by simp)
  | succ N ih =>
    intro node s rng e hok h he
    subst he
    rw [searchLoop] at h
    cases hsim : simulate g ops opts node s false rng with
    | error e0 =>
      rw [hsim] at h
      simp only [Except.error.injEq] at h
      subst h
      exact simulate_ne_unwrapMove g ops opts (sizeOf node) node (le_refl _)
        hok _ _ _ hsim
    | ok q =>
      obtain ⟨node1, r1, rng1⟩ := q
      rw [hsim] at h
      obtain ⟨_, _, _, _, _, hokp⟩ :=
        simulate_master g ops opts (sizeOf node) node (le_refl _) _ _ _ _ _ _ hsim
      exact ih node1 s rng1 _ (hokp hok) h rfl

/-- Characterisation of a successful pass through an interior (expanded,
non-terminal) node: a child is selected by the UCT scan, its move is applied,
the pass recurses into it, and the negated child outcome is recorded here. -/
theorem simulate_interior_char (g : Game S M) (ops : FOps)
    (opts : MCTSOptions) (m0 : Option M) (v : Nat) (sc : Int)
    (cs : List (Node M)) (s : S) (rng : List Nat) (node' : Node M) (r : Int)
    (rng' : List Nat)
    (h : simulate g ops opts (Node.mk m0 v sc (some (none, cs))) s false rng
      = .ok (node', r, rng')) :
    ∃ i, ∃ hlt : i < cs.length, ∃ mv child' rc rng1,
      bestChildScan ops (F.fin 1) (ops.flog2 (F.fin v)) cs rng
        = .ok (some i, rng1) ∧
      (cs.get ⟨i, hlt⟩).m = some mv ∧
      simulate g ops opts (cs.get ⟨i, hlt⟩) (g.apply mv s) false rng1
        = .ok (child', rc, rng') ∧
      r = -rc ∧
      node' = Node.mk m0 (v + 1) (sc + -rc) (some (none, cs.set i child')) := by
  simp only [simulate] at h
  cases hbs : bestChildScan ops (F.fin 1) (ops.flog2 (F.fin v)) cs rng with
  | error e => rw [hbs] at h; exact absurd h (by simp)
  | ok p =>
    obtain ⟨oi, rng1⟩ := p
    cases oi with
    | none => rw [hbs] at h; exact absurd h (by simp)
    | some i =>
      rw [hbs] at h
      dsimp only at h
      by_cases hlt : i < cs.length
      · rw [dif_pos hlt] at h
        cases hm : (cs.get ⟨i, hlt⟩).m with
        | none => rw [hm] at h; exact absurd h (by simp)
        | some mv =>
          rw [hm] at h
          dsimp only at h
          cases hrec : simulate g ops opts (cs.get ⟨i, hlt⟩)
              (g.apply mv s) false rng1 with
          | error e => rw [hrec] at h; exact absurd h (by simp)
          | ok q =>
            obtain ⟨child', rc, rng2⟩ := q
            rw [hrec] at h
            simp only [Except.ok.injEq, Prod.mk.injEq] at h
            obtain ⟨hn, hr, hrng⟩ := h
            subst hrng
            exact ⟨i, hlt, mv, child', rc, rng1, rfl, hm, hrec, hr.symm, hn.symm⟩
      · rw [dif_neg hlt] at h
        exact absurd h (by simp)

/-- The eagerly expanded root satisfies the score invariant. -/
theorem scoreInvB_rootNode (g : Game S M) (s : S) :
    scoreInvB (rootNode g s) = true := by
  rw [rootNode]
  rcases hne : new_expansion g s with ⟨wi, cs⟩
  simp only [scoreInvB, Bool.and_eq_true, decide_eq_true_eq]
  refine ⟨by simp, ?_⟩
  have := scoreInvL_new_expansion g s
  rw [hne] at this
  exact this

/-- The eagerly expanded root's children all carry moves. -/
theorem nodesOk_rootNode (g : Game S M) (s : S) :
    nodesOk (rootNode g s) = true := by
  rw [rootNode]
  rcases hne : new_expansion g s with ⟨wi, cs⟩
  simp only [nodesOk]
  have := nodesOkL_new_expansion g s
  rw [hne] at this
  exact this

/-- The only abort `best_child` can produce is `gen_range` on an empty
range. -/
theorem bestChild_err (ops : FOps) (e : F) (node : Node M) (rng : List Nat)
    (e' : Pan) (h : bestChild ops e node rng = .error e') :
    e' = .emptyRange := by
  cases hexp : node.expansion with
  | none => rw [bestChild, hexp] at h; exact absurd h (by simp)
  | some p =>
    obtain ⟨wi, cs⟩ := p
    rw [bestChild_eq_of_expansion ops e node rng wi cs hexp] at h
    cases hbs : bestChildScan ops e (ops.flog2 (F.fin node.visits)) cs rng with
    | error e0 =>
      rw [hbs] at h
      simp only [Except.error.injEq] at h
      rw [← h]
      exact bestChildScan_err ops e _ cs rng e0 hbs
    | ok p =>
      obtain ⟨oi, rng1⟩ := p
      cases oi with
      | none => rw [hbs] at h; exact absurd h (by simp)
      | some i => rw [hbs] at h; exact absurd h (by simp)

/-! ## Claim theorems -/

/-- C1: the claim states that each rollout iteration enumerates the legal
moves of the current, evolving playout state.  The code does not: its
`generate_moves` call reads the original input state `s` on every iteration
(`rolloutLoop` receives the constant `s0`).  On the chain game, the faithful
embedding keeps sampling the original move set, never reaches the terminal
state, and returns `0` at the depth cap, while the spec-modelled
evolving-state rollout reaches the win and returns `1`; the two move sets
genuinely differ after the first ply. -/
theorem claim_C1_rollout_enumerates_original_state :
    rollout gChain MCTSOptions.default 0 [] = .ok (0, []) ∧
    rolloutSpec gChain MCTSOptions.default 0 [] = .ok (1, []) ∧
    gChain.generate_moves 0 = [1] ∧
    gChain.generate_moves (gChain.apply 1 0) = [2] := by
  exact ⟨rfl, rfl, rfl, rfl⟩

/-- C2: the claim states that on a state with zero legal moves and no
reported winner, `choose_move` returns empty.  It does not: the first pass
reaches the root's empty, non-terminal expansion and `best_child` calls
`gen_range(0..0)`, which aborts (a Rust panic), so the embedded `chooseMove`
returns the `emptyRange` abort instead of `.ok none`. -/
theorem claim_C2_degenerate_input_aborts :
    chooseMove gDeg FImpl (MonteCarloTreeSearch.new MCTSOptions.default) 0 []
      = .error .emptyRange := by
  have hsim : simulate gDeg FImpl MCTSOptions.default (rootNode gDeg 0) 0 false []
      = .error .emptyRange := by
    simp [rootNode, new_expansion, gDeg, simulate, bestChildScan]
  have hloop : searchLoop gDeg FImpl MCTSOptions.default 100 (rootNode gDeg 0) 0 []
      = .error .emptyRange := by
    rw [show (100 : Nat) = 99 + 1 from rfl, searchLoop, hsim]
  simp [chooseMove, MonteCarloTreeSearch.new, hloop]

/-- C3: after `N` passes of the `choose_move` search loop over the eagerly
expanded root, the root's visit counter is exactly `N`, and at every node of
the resulting tree the score lies within `[-visits, visits]` (since this
holds for every `N`, it holds after every pass). -/
theorem claim_C3_root_visits_and_score_bounds (S M : Type) (g : Game S M)
    (ops : FOps) (opts : MCTSOptions) (N : Nat) (s : S) (rng : List Nat)
    (root' : Node M) (rng' : List Nat)
    (h : searchLoop g ops opts N (rootNode g s) s rng = .ok (root', rng')) :
    root'.visits = N ∧ scoreInvB root' = true := by
  obtain ⟨hv, hinv, _⟩ := searchLoop_ok g ops opts N (rootNode g s) s rng root' rng' h
  constructor
  · rw [hv]
    rcases hne : new_expansion g s with ⟨wi, cs⟩
    simp [rootNode, hne, Node.visits]
  · exact hinv (scoreInvB_rootNode g s)

/-- Witness for C3: one full pass on the one-move game produces the concrete
tree with root visits `1` and the score invariant everywhere. -/
theorem claim_C3_witness :
    searchLoop gOne FImpl MCTSOptions.default 1 (rootNode gOne 0) 0 []
      = .ok (⟨none, 1, -1,
               some (none, [⟨some 1, 1, 1, some (some .PlayerJustMoved, [])⟩])⟩, []) ∧
    (⟨none, 1, -1,
       some (none, [⟨some 1, 1, 1, some (some .PlayerJustMoved, [])⟩])⟩
        : Node Nat).visits = 1 ∧
    scoreInvB (⟨none, 1, -1,
       some (none, [⟨some 1, 1, 1, some (some .PlayerJustMoved, [])⟩])⟩
        : Node Nat) = true := by
  have h : searchLoop gOne FImpl MCTSOptions.default 1 (rootNode gOne 0) 0 []
      = .ok (⟨none, 1, -1,
               some (none, [⟨some 1, 1, 1, some (some .PlayerJustMoved, [])⟩])⟩, []) := by
    norm_num [searchLoop, rootNode, new_expansion, gOne, simulate, expandAndRollout,
      bestChildScan, scanBest, uctScore, FImpl, flog2Impl, fsqrtImpl, F.fgt, F.fadd,
      F.fmul, F.fdiv, Node.expansion, Node.visits, Node.score, Node.m, Node.new,
      updateStats, winVal, MCTSOptions.default]
  exact ⟨h, claim_C3_root_visits_and_score_bounds Nat Nat gOne FImpl
    MCTSOptions.default 1 0 [] _ [] h⟩

/-- C6: a successful rollout only ever returns `-1`, `0` or `1`, and a
rollout loop that exhausts its depth budget on a non-terminal state returns
exactly `0`. -/
theorem claim_C6_rollout_outcome_range :
    (∀ (S M : Type) (g : Game S M) (opts : MCTSOptions) (s : S)
       (rng : List Nat) (r : Int) (rng' : List Nat),
      rollout g opts s rng = .ok (r, rng') → r = -1 ∨ r = 0 ∨ r = 1) ∧
    (∀ (S M : Type) (g : Game S M) (s0 state : S) (sign : Int)
       (rng : List Nat),
      g.get_winner state = none →
      rolloutLoop g s0 0 state sign rng = .ok (0, rng)) := by
  constructor
  · intro S M g opts s rng r rng' h
    exact rollout_ok_range g opts s rng r rng' h
  · intro S M g s0 state sign rng hw
    rw [rolloutLoop, hw]

/-- Witness for C6: on the one-move game the rollout returns `-1` (a member
of the allowed set), and the depth-exhausted loop at the non-terminal state
`0` returns `0`. -/
theorem claim_C6_witness :
    rollout gOne MCTSOptions.default 0 [] = .ok (-1, []) ∧
    ((-1 : Int) = -1 ∨ (-1 : Int) = 0 ∨ (-1 : Int) = 1) ∧
    gOne.get_winner 0 = none ∧
    rolloutLoop gOne 5 0 0 1 [] = .ok (0, []) := by
  refine ⟨rfl, ?_, rfl, ?_⟩
  · exact claim_C6_rollout_outcome_range.1 Nat Nat gOne MCTSOptions.default
      0 [] (-1) [] rfl
  · exact claim_C6_rollout_outcome_range.2 Nat Nat gOne 5 0 1 [] rfl

/-- C9: with `rollouts_before_expanding = 0` (the default), the unsigned
comparison `visits < 0` is false for every visit count, so a pass that
reaches a node with no expansion always takes the expand-and-continue branch
(`expandAndRollout`), never the direct-rollout branch, and on success the
node's expansion is installed. -/
theorem claim_C9_zero_threshold_always_expands :
    MCTSOptions.default.rollouts_before_expanding = 0 ∧
    (∀ v : Nat, ¬ v < MCTSOptions.default.rollouts_before_expanding) ∧
    (∀ (S M : Type) (g : Game S M) (ops : FOps) (opts : MCTSOptions)
       (m0 : Option M) (v : Nat) (sc : Int) (s : S) (rng : List Nat),
      opts.rollouts_before_expanding = 0 →
      simulate g ops opts (Node.mk m0 v sc none) s false rng
        = expandAndRollout g ops opts m0 v sc s rng ∧
      (∀ (node' : Node M) (r : Int) (rng' : List Nat),
        simulate g ops opts (Node.mk m0 v sc none) s false rng
          = .ok (node', r, rng') →
        node'.expansion.isSome = true)) := by
  refine ⟨rfl, ?_, ?_⟩
  · intro v
    simp [MCTSOptions.default]
  · intro S M g ops opts m0 v sc s rng hrbe
    have heq : simulate g ops opts (Node.mk m0 v sc none) s false rng
        = expandAndRollout g ops opts m0 v sc s rng := by
      simp only [simulate, hrbe]
      rw [if_neg (by omega)]
    refine ⟨heq, ?_⟩
    intro node' r rng' h
    rw [heq] at h
    exact (expandAndRollout_master g ops opts m0 v sc s rng node' r rng' h).2.2.2.2.1

/-- Witness for C9: on the one-move game, the unexpanded node at state `1`
takes the expansion branch and ends with its expansion installed. -/
theorem claim_C9_witness :
    simulate gOne FImpl MCTSOptions.default (⟨some 1, 0, 0, none⟩ : Node Nat)
        1 false []
      = expandAndRollout gOne FImpl MCTSOptions.default (some 1) 0 0 1 [] ∧
    (⟨some 1, 1, 1, some (some .PlayerJustMoved, [])⟩ : Node Nat).expansion.isSome
      = true := by
  have h := claim_C9_zero_threshold_always_expands.2.2 Nat Nat gOne FImpl
    MCTSOptions.default (some 1) 0 0 1 [] rfl
  refine ⟨h.1, ?_⟩
  refine h.2 _ 1 [] ?_
  norm_num [simulate, expandAndRollout, new_expansion, gOne, updateStats, winVal,
    Node.m, Node.visits, Node.score, Node.expansion, MCTSOptions.default]

/-- C10: `update_stats` increments `visits` by one and adds the outcome to
`score`, leaves the node's move and expansion (and hence the rest of the
tree, which the value-level update does not touch) unchanged, and returns its
argument unchanged. -/
theorem claim_C10_update_stats_frame :
    ∀ (M : Type) (nd : Node M) (r : Int),
      (updateStats nd r).1.visits = nd.visits + 1 ∧
      (updateStats nd r).1.score = nd.score + r ∧
      (updateStats nd r).1.m = nd.m ∧
      (updateStats nd r).1.expansion = nd.expansion ∧
      (updateStats nd r).2 = r :=
  fun _ nd r => updateStats_facts nd r

/-- C4 (amended): `best_child` on a node whose expansion holds `k ≥ 1`
children never indexes out of range — any returned node is one of the `k`
children, at an in-range index — and it returns a child (never empty)
whenever at least one child's UCT score compares strictly above `-∞` (that
is, is neither NaN nor `-∞`), which holds for the exploration weights the
search actually passes on every reachable tree.  The unrestricted claim
("any exploration weight") fails: see the counterexample with weight
`-∞`. -/
theorem claim_C4_best_child_returns_a_child :
    (∀ (M : Type) (ops : FOps) (e : F) (node : Node M)
       (rng rng₂ : List Nat) (nd : Node M),
      bestChild ops e node rng = .ok (some nd, rng₂) →
      ∃ wi cs j, ∃ hj : j < cs.length,
        node.expansion = some (wi, cs) ∧ nd = cs.get ⟨j, hj⟩) ∧
    (∀ (M : Type) (ops : FOps) (e : F) (node : Node M) (rng : List Nat)
       (wi : Option Winner) (cs : List (Node M)),
      node.expansion = some (wi, cs) → 0 < cs.length →
      (∃ j, ∃ hj : j < cs.length,
        F.fgt (uctScore ops e (ops.flog2 (F.fin node.visits))
            (cs.get ⟨j, hj⟩).visits (cs.get ⟨j, hj⟩).score) F.negInf = true) →
      ∃ j, ∃ hj : j < cs.length,
        bestChild ops e node rng = .ok (some (cs.get ⟨j, hj⟩), rng.tailD [])) := by
  constructor
  · intro M ops e node rng rng₂ nd h
    obtain ⟨wi, cs, j, hj, hexp, hnd, _⟩ := bestChild_ok_char ops e node rng rng₂ nd h
    exact ⟨wi, cs, j, hj, hexp, hnd⟩
  · intro M ops e node rng wi cs hexp hlen hex
    exact bestChild_some_of_exists ops e node rng wi cs hexp hlen hex

/-- Counterexample for C4 as stated: with exploration weight `-∞` (a value
`f32` admits), a parent with one visit and a single once-visited child, the
child's UCT score is `1/2 + (-∞)·sqrt(2·log2(1)/1) = 1/2 + (-∞)·0 = NaN`, no
child compares above `-∞`, and `best_child` returns empty despite `k = 1`
children. -/
theorem claim_C4_counterexample :
    (⟨none, 1, 0, some (none, [⟨some 0, 1, 0, none⟩])⟩ : Node Nat).expansion
      = some (none, [⟨some 0, 1, 0, none⟩]) ∧
    ([(⟨some 0, 1, 0, none⟩ : Node Nat)]).length = 1 ∧
    bestChild FImpl F.negInf
        (⟨none, 1, 0, some (none, [⟨some 0, 1, 0, none⟩])⟩ : Node Nat) [0]
      = .ok (none, []) := by
  refine ⟨rfl, rfl, ?_⟩
  norm_num [bestChild, bestChildScan, scanBest, uctScore, FImpl, flog2Impl,
    fsqrtImpl, F.fgt, F.fadd, F.fmul, F.fdiv, Node.expansion, Node.visits,
    Node.score, Node.new]

/-- Witness for C4: on a root with one unvisited child and exploration weight
`1`, the child's score is `+∞ > -∞` and `best_child` returns that child. -/
theorem claim_C4_witness :
    ∃ j, ∃ hj : j < ([(⟨some 1, 0, 0, none⟩ : Node Nat)]).length,
      bestChild FImpl (F.fin 1)
          (⟨none, 0, 0, some (none, [⟨some 1, 0, 0, none⟩])⟩ : Node Nat) [0]
        = .ok (some (([(⟨some 1, 0, 0, none⟩ : Node Nat)]).get ⟨j, hj⟩),
               ([0] : List Nat).tailD []) := by
  refine claim_C4_best_child_returns_a_child.2 Nat FImpl (F.fin 1)
    _ [0] none [⟨some 1, 0, 0, none⟩] rfl (by simp) ?_
  refine ⟨0, by simp, ?_⟩
  norm_num [uctScore, FImpl, flog2Impl, F.fgt, Node.visits, Node.score]

/-- C5 (amended): for a finite exploration weight, `uct_score` returns the
guard value `+∞`/`0` on an unvisited child, and otherwise
`win_ratio + weight · sqrt(2 · log_parent_visits / visits)` with
`win_ratio = (score + visits)/(2 · visits)`; the score is never NaN provided
the child is unvisited or `log_parent_visits` is a non-negative finite value
(true whenever the parent's visit count is at least one).  The unrestricted
"never NaN" fails when the parent is unvisited: see the counterexample. -/
theorem claim_C5_uct_score_formula :
    ∀ (ops : FOps) (ex : ℚ) (lg : F) (visits : Nat) (score : Int),
      (∀ q : ℚ, 0 ≤ q → ∃ q', ops.fsqrt (F.fin q) = F.fin q') →
      ((visits = 0 → uctScore ops (F.fin ex) lg visits score
          = if F.fgt (F.fin ex) (F.fin 0) then F.posInf else F.fin 0) ∧
       (0 < visits → uctScore ops (F.fin ex) lg visits score
          = F.fadd (F.fdiv (F.fin ((score : ℚ) + (visits : ℚ)))
                           (F.fin (2 * (visits : ℚ))))
                   (F.fmul (F.fin ex)
                           (ops.fsqrt (F.fdiv (F.fmul (F.fin 2) lg)
                                              (F.fin (visits : ℚ)))))) ∧
       ((visits = 0 ∨ ∃ L : ℚ, lg = F.fin L ∧ 0 ≤ L) →
         uctScore ops (F.fin ex) lg visits score ≠ F.nan)) := by
  intro ops ex lg visits score hsq
  refine ⟨?_, ?_, ?_⟩
  · intro h0
    rw [uctScore, if_pos h0]
  · intro hpos
    rw [uctScore, if_neg (by omega)]
    simp [F.fadd, F.fmul]
  · intro hcase
    rcases Nat.eq_zero_or_pos visits with h0 | hpos
    · rw [uctScore, if_pos h0]
      split <;> simp
    · obtain ⟨L, hlg, hL⟩ : ∃ L : ℚ, lg = F.fin L ∧ 0 ≤ L := by
        rcases hcase with h0 | h
        · omega
        · exact h
      subst hlg
      rw [uctScore, if_neg (by omega)]
      have hv : ((visits : ℚ)) ≠ 0 := by
        exact_mod_cast Nat.pos_iff_ne_zero.1 hpos
      have harg : F.fdiv (F.fmul (F.fin 2) (F.fin L)) (F.fin (visits : ℚ))
          = F.fin (2 * L / (visits : ℚ)) := by
        simp [F.fmul, F.fdiv, hv]
      have hargpos : 0 ≤ 2 * L / (visits : ℚ) := by
        apply div_nonneg (by linarith) (by positivity)
      obtain ⟨q', hq'⟩ := hsq _ hargpos
      have h2v : (2 * (visits : ℚ)) ≠ 0 := by
        simp [hv]
      rw [harg, hq']
      have hwr : F.fdiv (F.fadd (F.fin (score : ℚ)) (F.fin (visits : ℚ)))
          (F.fmul (F.fin 2) (F.fin (visits : ℚ)))
          = F.fin (((score : ℚ) + (visits : ℚ)) / (2 * (visits : ℚ))) := by
        simp [F.fadd, F.fmul, F.fdiv, h2v]
      rw [hwr]
      simp [F.fadd, F.fmul]

/-- Counterexample for C5 as stated: with `log_parent_visits = log2(0)` (an
unvisited parent, as `f32` computes it: `-∞`) and a once-visited child, the
UCT score is `1/2 + 1 · sqrt(2 · (-∞)/1) = 1/2 + sqrt(-∞) = NaN`, violating
"the score is never NaN". -/
theorem claim_C5_counterexample :
    FImpl.flog2 (F.fin 0) = F.negInf ∧
    uctScore FImpl (F.fin 1) (FImpl.flog2 (F.fin 0)) 1 0 = F.nan := by
  constructor
  · norm_num [FImpl, flog2Impl]
  · norm_num [uctScore, FImpl, flog2Impl, fsqrtImpl, F.fadd, F.fmul, F.fdiv]

/-- Witness for C5: the concrete oracle satisfies the sqrt contract, and at a
visited parent (`log_parent_visits = 0`) the score of a once-visited child is
not NaN. -/
theorem claim_C5_witness :
    uctScore FImpl (F.fin 1) (F.fin 0) 1 0 ≠ F.nan := by
  have hsq : ∀ q : ℚ, 0 ≤ q → ∃ q', FImpl.fsqrt (F.fin q) = F.fin q' := by
    intro q hq
    by_cases h0 : q = 0
    · exact ⟨0, by simp [FImpl, fsqrtImpl, h0]⟩
    · exact ⟨Rat.sqrt q, by simp [FImpl, fsqrtImpl, not_lt.2 hq, h0]⟩
  exact (claim_C5_uct_score_formula FImpl 1 (F.fin 0) 1 0 hsq).2.2
    (Or.inr ⟨0, rfl, le_refl 0⟩)

/-- C7: `update_stats` returns its argument unchanged, and whenever a pass
recurses from an interior node into the selected child, the outcome the
parent records (and returns) is exactly the negation of the outcome the child
recorded and returned for that same pass. -/
theorem claim_C7_negamax_consistency :
    (∀ (M : Type) (nd : Node M) (r : Int), (updateStats nd r).2 = r) ∧
    (∀ (S M : Type) (g : Game S M) (ops : FOps) (opts : MCTSOptions)
       (m0 : Option M) (v : Nat) (sc : Int) (cs : List (Node M)) (s : S)
       (rng : List Nat) (node' : Node M) (r : Int) (rng' : List Nat),
      simulate g ops opts (Node.mk m0 v sc (some (none, cs))) s false rng
        = .ok (node', r, rng') →
      ∃ i, ∃ hlt : i < cs.length, ∃ mv child' rc rng1,
        bestChildScan ops (F.fin 1) (ops.flog2 (F.fin v)) cs rng
          = .ok (some i, rng1) ∧
        (cs.get ⟨i, hlt⟩).m = some mv ∧
        simulate g ops opts (cs.get ⟨i, hlt⟩) (g.apply mv s) false rng1
          = .ok (child', rc, rng') ∧
        r = -rc ∧
        child'.score = (cs.get ⟨i, hlt⟩).score + rc ∧
        child'.visits = (cs.get ⟨i, hlt⟩).visits + 1 ∧
        node'.score = sc + -rc ∧ node'.visits = v + 1) := by
  constructor
  · intro M nd r
    rfl
  · intro S M g ops opts m0 v sc cs s rng node' r rng' h
    obtain ⟨i, hlt, mv, child', rc, rng1, hbs, hm, hrec, hr, hn⟩ :=
      simulate_interior_char g ops opts m0 v sc cs s rng node' r rng' h
    obtain ⟨hcv, hcs, _, _, _, _⟩ :=
      simulate_master g ops opts (sizeOf (cs.get ⟨i, hlt⟩)) _ (le_refl _)
        _ _ _ _ _ _ hrec
    subst hn
    exact ⟨i, hlt, mv, child', rc, rng1, hbs, hm, hrec, hr, hcs, hcv, rfl, rfl⟩

/-- Witness for C7: one concrete interior pass on the one-move game, with the
parent recording `-1` exactly when the child records `+1`. -/
theorem claim_C7_witness :
    simulate gOne FImpl MCTSOptions.default
        (⟨none, 5, 0, some (none, [⟨some 1, 0, 0, none⟩])⟩ : Node Nat) 0 false []
      = .ok (⟨none, 6, -1,
               some (none, [⟨some 1, 1, 1, some (some .PlayerJustMoved, [])⟩])⟩,
             -1, []) ∧
    (∃ i, ∃ hlt : i < ([(⟨some 1, 0, 0, none⟩ : Node Nat)]).length,
      ∃ mv child' rc rng1,
        bestChildScan FImpl (F.fin 1) (FImpl.flog2 (F.fin 5))
            [(⟨some 1, 0, 0, none⟩ : Node Nat)] [] = .ok (some i, rng1) ∧
        (([(⟨some 1, 0, 0, none⟩ : Node Nat)]).get ⟨i, hlt⟩).m = some mv ∧
        simulate gOne FImpl MCTSOptions.default
            (([(⟨some 1, 0, 0, none⟩ : Node Nat)]).get ⟨i, hlt⟩)
            (gOne.apply mv 0) false rng1 = .ok (child', rc, []) ∧
        (-1 : Int) = -rc ∧
        child'.score = (([(⟨some 1, 0, 0, none⟩ : Node Nat)]).get ⟨i, hlt⟩).score + rc ∧
        child'.visits = (([(⟨some 1, 0, 0, none⟩ : Node Nat)]).get ⟨i, hlt⟩).visits + 1 ∧
        (⟨none, 6, -1,
           some (none, [⟨some 1, 1, 1, some (some .PlayerJustMoved, [])⟩])⟩
            : Node Nat).score = 0 + -rc ∧
        (⟨none, 6, -1,
           some (none, [⟨some 1, 1, 1, some (some .PlayerJustMoved, [])⟩])⟩
            : Node Nat).visits = 5 + 1) := by
  have h : simulate gOne FImpl MCTSOptions.default
      (⟨none, 5, 0, some (none, [⟨some 1, 0, 0, none⟩])⟩ : Node Nat) 0 false []
      = .ok (⟨none, 6, -1,
               some (none, [⟨some 1, 1, 1, some (some .PlayerJustMoved, [])⟩])⟩,
             -1, []) := by
    norm_num [simulate, expandAndRollout, new_expansion, gOne, bestChildScan,
      scanBest, uctScore, FImpl, flog2Impl, fsqrtImpl, F.fgt, F.fadd, F.fmul,
      F.fdiv, Node.expansion, Node.visits, Node.score, Node.m, Node.new,
      updateStats, winVal, MCTSOptions.default]
  exact ⟨h, claim_C7_negamax_consistency.2 Nat Nat gOne FImpl
    MCTSOptions.default none 5 0 [⟨some 1, 0, 0, none⟩] 0 [] _ (-1) [] h⟩

/-- C8: every child created by `new_expansion` carries a present move; a pass
over a tree whose expansion children all carry moves (as every tree the
search builds does) never aborts at the selected child's move `unwrap`; and
`choose_move` never aborts at its final move `unwrap`. -/
theorem claim_C8_expansion_children_carry_moves :
    (∀ (S M : Type) (g : Game S M) (s : S),
      ∀ c ∈ (new_expansion g s).2, c.m.isSome = true) ∧
    (∀ (S M : Type) (g : Game S M) (ops : FOps) (opts : MCTSOptions)
       (node : Node M) (s : S) (force : Bool) (rng : List Nat),
      nodesOk node = true →
      simulate g ops opts node s force rng ≠ .error .unwrapMove) ∧
    (∀ (S M : Type) (g : Game S M) (ops : FOps)
       (mcts : MonteCarloTreeSearch) (s : S) (rng : List Nat),
      chooseMove g ops mcts s rng ≠ .error .unwrapMove) := by
  refine ⟨?_, ?_, ?_⟩
  · intro S M g s c hc
    obtain ⟨mv, rfl⟩ := new_expansion_children g s c hc
    rfl
  · intro S M g ops opts node s force rng hok
    exact simulate_ne_unwrapMove g ops opts (sizeOf node) node (le_refl _)
      hok s force rng
  · intro S M g ops mcts s rng h
    rw [chooseMove] at h
    cases hsl : searchLoop g ops mcts.options mcts.max_rollouts (rootNode g s)
        s rng with
    | error e =>
      rw [hsl] at h
      simp only [Except.error.injEq] at h
      subst h
      exact searchLoop_err g ops mcts.options mcts.max_rollouts (rootNode g s)
        s rng _ (nodesOk_rootNode g s) hsl rfl
    | ok p =>
      obtain ⟨root', rng1⟩ := p
      rw [hsl] at h
      dsimp only at h
      obtain ⟨_, _, hok⟩ := searchLoop_ok g ops mcts.options mcts.max_rollouts
        (rootNode g s) s rng root' rng1 hsl
      have hokr : nodesOk root' = true := hok (nodesOk_rootNode g s)
      cases hbc : bestChild ops (F.fin 0) root' rng1 with
      | error e =>
        rw [hbc] at h
        simp only [Except.error.injEq] at h
        subst h
        have := bestChild_err ops (F.fin 0) root' rng1 _ hbc
        exact absurd this (by simp)
      | ok p =>
        obtain ⟨ond, rng2⟩ := p
        cases ond with
        | none => rw [hbc] at h; exact absurd h (by simp)
        | some nd =>
          rw [hbc] at h
          dsimp only at h
          obtain ⟨wi, cs, j, hj, hexp, hnd, _⟩ :=
            bestChild_ok_char ops (F.fin 0) root' rng1 rng2 nd hbc
          have hnodes : nodesOkL cs = true := by
            cases root' with
            | mk m0 v sc exp =>
              simp only [Node.expansion] at hexp
              subst hexp
              simpa only [nodesOk] using hokr
          have hms := ((nodesOkL_iff cs).1 hnodes _ (List.get_mem cs j hj)).1
          rw [← hnd] at hms
          cases hm : nd.m with
          | none => rw [hm] at hms; exact absurd hms (by simp)
          | some mv => rw [hm] at h; exact absurd h (by simp)

/-- Witness for C8: a fresh expansion child of the one-move game carries its
move; a concrete interior pass does not abort at the move `unwrap`; and the
full `choose_move` on the one-move game does not abort at the final move
`unwrap`. -/
theorem claim_C8_witness :
    (Node.new (some 1) : Node Nat).m.isSome = true ∧
    simulate gOne FImpl MCTSOptions.default
        (⟨none, 5, 0, some (none, [⟨some 1, 0, 0, none⟩])⟩ : Node Nat) 0 false []
      ≠ .error .unwrapMove ∧
    chooseMove gOne FImpl (MonteCarloTreeSearch.new MCTSOptions.default) 0 []
      ≠ .error .unwrapMove := by
  refine ⟨?_, ?_, ?_⟩
  · refine claim_C8_expansion_children_carry_moves.1 Nat Nat gOne 0
      (Node.new (some 1)) ?_
    simp [new_expansion, gOne, Node.new]
  · refine claim_C8_expansion_children_carry_moves.2.1 Nat Nat gOne FImpl
      MCTSOptions.default _ 0 false [] ?_
    simp [nodesOk, nodesOkL, Node.m]
  · exact claim_C8_expansion_children_carry_moves.2.2 Nat Nat gOne FImpl
      (MonteCarloTreeSearch.new MCTSOptions.default) 0 []

end MctsVerify
